import Mathlib

/-!
Verification of the bind-args crate (command line argument parsing).

The development shallowly embeds the Rust sources:
  * `src/lib.rs`     — tokenizer (`parse`) and the `ArgumentBag` extraction API;
  * `src/args.rs`    — the `Args` tree builder (nested subcommand view);
  * `src/command.rs` — the `Command` schema with `_validate` / `_resolve_aliases`;
  * `src/command/help.rs` — `requested_help`.

Modelling conventions:
  * Rust `String` / `&str` is modelled as `List Char` (named `Str`).  Rust's
    `len()` counts bytes; on ASCII input (all inputs appearing in the claims)
    byte length and character count coincide.
  * A Rust panic (`expect`, `unwrap`) is modelled by `Option`: `none` is the
    panic, `some` the normal result.
  * `HashSet`/`HashMap` fields are modelled as lists holding the set contents /
    association pairs.  Where the Rust code observably depends on the hash-set
    iteration order (the `required_props.difference(&seen)` walk in
    `_validate`), the embedding takes the iteration order as an explicit
    function parameter `ord`, since the Rust standard library leaves that order
    unspecified and randomizes it per process.
-/

/-- Rust strings, modelled as lists of characters. -/
abbrev Str := List Char

/-- `str::split_once(c)`: split at the first occurrence of `c`; `none` when
`c` does not occur. -/
def splitOnce (c : Char) : Str → Option (Str × Str)
  | [] => none
  | x :: xs =>
    if x = c then some ([], xs)
    else (splitOnce c xs).map (fun r => (x :: r.1, r.2))

/-- The `Arg` enum of `src/lib.rs`: `Switch` (a flag such as `--name`),
`SwitchWithValue` (an option such as `--name=value`), `Operand` (a positional
value), and the `Empty` tombstone left behind by `std::mem::take`. -/
inductive Arg where
  | Switch (name : Str)
  | SwitchWithValue (name : Str) (value : Str)
  | Operand (position : Nat) (value : Str)
  | Empty
deriving DecidableEq

/-- The `Display` impl for `Arg` in `src/lib.rs`: single-character names render
with one dash, longer names with two; operands render as their bare text. -/
def render : Arg → Str
  | Arg.Empty => []
  | Arg.Switch name =>
    if name.length = 1 then '-' :: name else '-' :: '-' :: name
  | Arg.SwitchWithValue name value =>
    if name.length = 1 then '-' :: (name ++ '=' :: value)
    else '-' :: '-' :: (name ++ '=' :: value)
  | Arg.Operand _ v => v

/-- `ArgumentBag::remove_flag` on the underlying vector: scan left to right for
the first `Switch` with the given name, replace it by the `Empty` tombstone and
return `true`; return `false` if no such switch exists. -/
def removeFlagL (name : Str) : List Arg → Bool × List Arg
  | [] => (false, [])
  | Arg.Switch n :: rest =>
    if n = name then (true, Arg.Empty :: rest)
    else ((removeFlagL name rest).1, Arg.Switch n :: (removeFlagL name rest).2)
  | a :: rest => ((removeFlagL name rest).1, a :: (removeFlagL name rest).2)

/-- `ArgumentBag::remove_option` on the underlying vector: scan left to right;
a matching `SwitchWithValue` is consumed and its value returned; a matching
bare `Switch` consumes the *next* slot as well when that slot is an `Operand`
(space-separated option form) and otherwise stops the scan immediately,
returning `none` with the vector unchanged. -/
def removeOptionL (name : Str) : List Arg → Option Str × List Arg
  | [] => (none, [])
  | Arg.SwitchWithValue n v :: rest =>
    if n = name then (some v, Arg.Empty :: rest)
    else ((removeOptionL name rest).1, Arg.SwitchWithValue n v :: (removeOptionL name rest).2)
  | Arg.Switch n :: rest =>
    if n = name then
      match rest with
      | Arg.Operand _ v :: rest2 => (some v, Arg.Empty :: Arg.Empty :: rest2)
      | _ => (none, Arg.Switch n :: rest)
    else ((removeOptionL name rest).1, Arg.Switch n :: (removeOptionL name rest).2)
  | a :: rest => ((removeOptionL name rest).1, a :: (removeOptionL name rest).2)

/-- `ArgumentBag::remove_operand` on the underlying vector: consume and return
the first `Operand`. -/
def removeOperandL : List Arg → Option Str × List Arg
  | [] => (none, [])
  | Arg.Operand _ v :: rest => (some v, Arg.Empty :: rest)
  | a :: rest => ((removeOperandL rest).1, a :: (removeOperandL rest).2)

/-- `ArgumentBag::remove_remaining` on the underlying vector: render every
non-`Empty` slot in order and tombstone it. -/
def removeRemainingL : List Arg → List Str × List Arg
  | [] => ([], [])
  | Arg.Empty :: rest => ((removeRemainingL rest).1, Arg.Empty :: (removeRemainingL rest).2)
  | a :: rest => (render a :: (removeRemainingL rest).1, Arg.Empty :: (removeRemainingL rest).2)

/-- The `ArgumentBag` struct of `src/lib.rs`. -/
structure ArgumentBag where
  program_name : Str
  args : List Arg
  ignored : List Str
deriving DecidableEq

def ArgumentBag.remove_flag (b : ArgumentBag) (name : Str) : Bool × ArgumentBag :=
  ((removeFlagL name b.args).1, { b with args := (removeFlagL name b.args).2 })

def ArgumentBag.remove_option (b : ArgumentBag) (name : Str) : Option Str × ArgumentBag :=
  ((removeOptionL name b.args).1, { b with args := (removeOptionL name b.args).2 })

def ArgumentBag.remove_operand (b : ArgumentBag) : Option Str × ArgumentBag :=
  ((removeOperandL b.args).1, { b with args := (removeOperandL b.args).2 })

def ArgumentBag.remove_remaining (b : ArgumentBag) : List Str × ArgumentBag :=
  ((removeRemainingL b.args).1, { b with args := (removeRemainingL b.args).2 })

/-- The `ParseError` enum of `src/lib.rs`. -/
inductive ParseError where
  | OptionMissingValue (raw : Str)
  | MalformedOption (raw : Str)
  | MalformedFlag (raw : Str)
deriving DecidableEq

/-- Lexing of one raw element that is neither filtered out nor the `--`
marker, following the body of the `for` loop in `parse` (`src/lib.rs`).
Returns the token together with the updated operand counter. -/
def lexOne (arg : Str) (n : Nat) : Except ParseError (Arg × Nat) :=
  match arg with
  | '-' :: '-' :: v =>
    match splitOnce '=' v with
    | some (name, value) =>
      if name.length < 2 then Except.error (ParseError.MalformedOption arg)
      else Except.ok (Arg.SwitchWithValue name value, n)
    | none =>
      if v.length < 2 then Except.error (ParseError.MalformedFlag arg)
      else Except.ok (Arg.Switch v, n)
  | '-' :: v =>
    match splitOnce '=' v with
    | some (name, value) =>
      if name.length ≠ 1 then Except.error (ParseError.MalformedOption arg)
      else Except.ok (Arg.SwitchWithValue name value, n)
    | none =>
      if v.length ≠ 1 then Except.error (ParseError.MalformedFlag arg)
      else Except.ok (Arg.Switch v, n)
  | _ => Except.ok (Arg.Operand n arg, n + 1)

/-- The main loop of `parse` (`src/lib.rs`): lex the post-program-name
elements left to right, threading the operand counter; a literal `--` stops
interpretation and the rest of the elements become the ignored tail. -/
def lexAll : List Str → Nat → Except ParseError (List Arg × List Str)
  | [], _ => Except.ok ([], [])
  | arg :: rest, n =>
    if arg = ['-', '-'] then Except.ok ([], rest)
    else
      match lexOne arg n with
      | Except.error e => Except.error e
      | Except.ok (a, n2) =>
        match lexAll rest n2 with
        | Except.error e => Except.error e
        | Except.ok (toks, ign) => Except.ok (a :: toks, ign)

/-- `parse` of `src/lib.rs`.  The input iterator first drops empty strings
(`filter(|s| !s.is_empty())`); the first surviving element becomes the program
name.  `none` models the `expect("missing program name")` panic when nothing
survives the filter. -/
def parse (input : List Str) : Option (Except ParseError ArgumentBag) :=
  match input.filter (fun s => !s.isEmpty) with
  | [] => none
  | p :: rest =>
    some (match lexAll rest 0 with
      | Except.error e => Except.error e
      | Except.ok (toks, ign) => Except.ok ⟨p, toks, ign⟩)

/-- Decidable equality for `Except` results (used to evaluate concrete
parser outcomes). -/
instance {e a : Type} [DecidableEq e] [DecidableEq a] : DecidableEq (Except e a) := fun x y =>
  match x, y with
  | Except.error e1, Except.error e2 =>
    match decEq e1 e2 with
    | isTrue h => isTrue (by rw [h])
    | isFalse h => isFalse (by intro hc; injection hc; contradiction)
  | Except.error _, Except.ok _ => isFalse (by intro hc; cases hc)
  | Except.ok _, Except.error _ => isFalse (by intro hc; cases hc)
  | Except.ok a1, Except.ok a2 =>
    match decEq a1 a2 with
    | isTrue h => isTrue (by rw [h])
    | isFalse h => isFalse (by intro hc; injection hc; contradiction)

/-- The `ArgumentKind` enum of `src/command.rs`. -/
inductive ArgumentKind where
  | command
  | flag
  | prop
deriving DecidableEq

/-- The `InvalidArguments` error enum of `src/command.rs`. -/
inductive InvalidArguments where
  | UnrecognizedArgument (name : Str) (kind : ArgumentKind)
  | MissingRequiredOptions (name : Str)
deriving DecidableEq

/-- The `Flag` definition struct of `src/command.rs` (field order as in the
source; `names` is never empty when built through `Flag::new`/`add_alias`). -/
structure FlagDef where
  help : Str
  names : List Str
deriving DecidableEq

/-- The `Prop` definition struct of `src/command.rs`. -/
structure PropDef where
  help : Str
  required : Bool
  names : List Str
deriving DecidableEq

/-- `Flag::name`: the first (canonical) name.  `headD []` stands for the
`expect` on a list that is non-empty for every value built by the builder. -/
def FlagDef.name (f : FlagDef) : Str := f.names.headD []

/-- `Prop::name`: the first (canonical) name. -/
def PropDef.name (p : PropDef) : Str := p.names.headD []

/-- The `Command` schema tree of `src/command.rs`. -/
inductive Command where
  | mk (names : List Str) (help : Str) (props : List PropDef)
       (flags : List FlagDef) (commands : List Command)

def Command.names : Command → List Str
  | .mk ns _ _ _ _ => ns

def Command.help : Command → Str
  | .mk _ h _ _ _ => h

def Command.props : Command → List PropDef
  | .mk _ _ ps _ _ => ps

def Command.flags : Command → List FlagDef
  | .mk _ _ _ fs _ => fs

def Command.commands : Command → List Command
  | .mk _ _ _ _ cs => cs

/-- `Command::name`: the first (canonical) name. -/
def Command.name (c : Command) : Str := c.names.headD []

/-- `Command::get_subcommand`: first child whose name list contains `name`. -/
def Command.get_subcommand (c : Command) (name : Str) : Option Command :=
  c.commands.find? (fun sc => sc.names.contains name)

/-- `Command::get_flag`: first flag definition whose name list contains `name`. -/
def Command.get_flag (c : Command) (name : Str) : Option FlagDef :=
  c.flags.find? (fun f => f.names.contains name)

/-- `Command::get_prop`: first prop definition whose name list contains `name`. -/
def Command.get_prop (c : Command) (name : Str) : Option PropDef :=
  c.props.find? (fun p => p.names.contains name)

/-- The `Args` tree of `src/args.rs`.  The Rust field
`subcommand : Option<Box<Args>>` is inlined into two constructors: `leaf`
(no subcommand) and `node` (with subcommand). -/
inductive Args where
  | leaf (name : Str) (flags : List Str) (props : List (Str × Str))
  | node (name : Str) (flags : List Str) (props : List (Str × Str)) (sub : Args)
deriving DecidableEq

def Args.name : Args → Str
  | .leaf n _ _ => n
  | .node n _ _ _ => n

def Args.flags : Args → List Str
  | .leaf _ fl _ => fl
  | .node _ fl _ _ => fl

def Args.props : Args → List (Str × Str)
  | .leaf _ _ pr => pr
  | .node _ _ pr _ => pr

def Args.subcommand : Args → Option Args
  | .leaf _ _ _ => none
  | .node _ _ _ sa => some sa

/-- Replace the `name` field of an `Args` node. -/
def Args.withName : Args → Str → Args
  | .leaf _ fl pr, n => .leaf n fl pr
  | .node _ fl pr sa, n => .node n fl pr sa

/-- The canonical names of the required props at a node, in definition order
(the contents of the `required_props` hash set in `_validate`). -/
def requiredNames (cmd : Command) : List Str :=
  cmd.props.filterMap (fun p => if p.required then some p.name else none)

/-- The canonical names of required props actually observed among the argument
props (the `seen` hash set in `_validate`).  Only membership in this list is
ever used, so the list order is irrelevant. -/
def seenRequired (cmd : Command) (pr : List (Str × Str)) : List Str :=
  pr.filterMap (fun pv =>
    match cmd.get_prop pv.1 with
    | some pd => if pd.required then some pd.name else none
    | none => none)

/-- The `required_props.difference(&seen)` vector of `_validate`.  `ord` gives
the iteration order of the `required_props` hash set (applied to the
definition-order list); the Rust standard library leaves this order
unspecified and randomizes it per process. -/
def missingRequired (ord : List Str → List Str) (cmd : Command)
    (pr : List (Str × Str)) : List Str :=
  (ord (requiredNames cmd)).filter (fun r => !(seenRequired cmd pr).contains r)

/-- The per-node portion of `Command::_validate` (steps before the subcommand
check): every argument flag must match a flag definition, every argument prop
must match a prop definition, and no required prop may be missing.  The Rust
code reports the first unknown prop and collects `seen` in a single loop;
since an unknown prop aborts the loop, checking for unknown props first and
then collecting `seen` is equivalent. -/
def nodeCheck (ord : List Str → List Str) (cmd : Command) (fl : List Str)
    (pr : List (Str × Str)) : Except InvalidArguments Unit :=
  match fl.find? (fun f => (cmd.get_flag f).isNone) with
  | some f => Except.error (InvalidArguments.UnrecognizedArgument f ArgumentKind.flag)
  | none =>
    match pr.find? (fun pv => (cmd.get_prop pv.1).isNone) with
    | some pv => Except.error (InvalidArguments.UnrecognizedArgument pv.1 ArgumentKind.prop)
    | none =>
      match (missingRequired ord cmd pr).head? with
      | some first => Except.error (InvalidArguments.MissingRequiredOptions first)
      | none => Except.ok ()

/-- `Command::_validate` of `src/command.rs`: check the node itself, then (if
a subcommand argument is present) resolve it against the child definitions and
recurse; a missing subcommand is always acceptable. -/
def _validate (ord : List Str → List Str) (cmd : Command) : Args → Except InvalidArguments Unit
  | .leaf _ fl pr =>
    match nodeCheck ord cmd fl pr with
    | Except.error e => Except.error e
    | Except.ok _ => Except.ok ()
  | .node _ fl pr sa =>
    match nodeCheck ord cmd fl pr with
    | Except.error e => Except.error e
    | Except.ok _ =>
      match cmd.get_subcommand sa.name with
      | none => Except.error (InvalidArguments.UnrecognizedArgument sa.name ArgumentKind.command)
      | some sd => _validate ord sd sa

/-- The flag-canonicalization loop of `_resolve_aliases`: each argument flag
is looked up and replaced by the canonical name of its definition; `none`
models the `unwrap()` panic on an unmatched flag. -/
def canonFlagsM (cmd : Command) : List Str → Option (List Str)
  | [] => some []
  | f :: rest =>
    match cmd.get_flag f with
    | none => none
    | some fd =>
      match canonFlagsM cmd rest with
      | none => none
      | some cs => some (fd.name :: cs)

/-- `HashMap::insert` on the association-list model of a map: when the key is
already present its value is replaced in place, otherwise the pair is
appended. -/
def insertAssoc (k : Str) (v : Str) : List (Str × Str) → List (Str × Str)
  | [] => [(k, v)]
  | kv :: rest => if kv.1 = k then (k, v) :: rest else kv :: insertAssoc k v rest

/-- The prop-canonicalization loop of `_resolve_aliases`: starting from an
empty `canonical_props` map, each argument prop is looked up and its value
inserted under the canonical name of its definition.  When two argument keys
resolve to the same canonical name, the later insert overwrites the earlier
value, exactly as `HashMap::insert` does in the Rust code (which of the two
survives there depends on the map's unspecified iteration order; the list
order stands for that iteration order).  `none` models the `unwrap()` panic on
an unmatched prop. -/
def canonPropsGo (cmd : Command) (acc : List (Str × Str)) :
    List (Str × Str) → Option (List (Str × Str))
  | [] => some acc
  | pv :: rest =>
    match cmd.get_prop pv.1 with
    | none => none
    | some pd => canonPropsGo cmd (insertAssoc pd.name pv.2 acc) rest

/-- The rebuilt `canonical_props` map of `_resolve_aliases`. -/
def canonPropsM (cmd : Command) (pr : List (Str × Str)) : Option (List (Str × Str)) :=
  canonPropsGo cmd [] pr

/-- `Command::_resolve_aliases` of `src/command.rs`.  The Rust code renames
the subcommand node and then recurses into it; since the recursion never reads
the node's own name, renaming after the recursive call is equivalent and keeps
the recursion structural. -/
def _resolve_aliases (cmd : Command) : Args → Option Args
  | .leaf n fl pr =>
    match canonFlagsM cmd fl, canonPropsM cmd pr with
    | some cf, some cp => some (.leaf n cf cp)
    | _, _ => none
  | .node n fl pr sa =>
    match canonFlagsM cmd fl, canonPropsM cmd pr with
    | some cf, some cp =>
      match cmd.get_subcommand sa.name with
      | none => none
      | some sd =>
        match _resolve_aliases sd sa with
        | none => none
        | some sa2 => some (.node n cf cp (sa2.withName sd.name))
    | _, _ => none

/-- Canonical name of an argument flag under a schema node; identity when the
flag has no definition (that case is unreachable after validation). -/
def canonFlagName (cmd : Command) (f : Str) : Str :=
  match cmd.get_flag f with
  | some fd => fd.name
  | none => f

/-- Canonical key of an argument prop under a schema node; identity when the
prop has no definition (unreachable after validation). -/
def canonPropKey (cmd : Command) (p : Str) : Str :=
  match cmd.get_prop p with
  | some pd => pd.name
  | none => p

/-- Specification-side description of alias resolution, written from the
spec's words: rewrite every flag name and prop key on the args tree to the
canonical name of its matching definition, rename the subcommand node to its
matched child's canonical name, recurse into that child, and change nothing
else.  This total function is compared with the embedded `_resolve_aliases`. -/
def resolveAliasesSpec (cmd : Command) : Args → Args
  | .leaf n fl pr =>
    .leaf n (fl.map (canonFlagName cmd))
      (pr.map (fun pv => (canonPropKey cmd pv.1, pv.2)))
  | .node n fl pr sa =>
    match cmd.get_subcommand sa.name with
    | some sd =>
      .node n (fl.map (canonFlagName cmd))
        (pr.map (fun pv => (canonPropKey cmd pv.1, pv.2)))
        ((resolveAliasesSpec sd sa).withName sd.name)
    | none =>
      .node n (fl.map (canonFlagName cmd))
        (pr.map (fun pv => (canonPropKey cmd pv.1, pv.2))) sa

/-- No two distinct argument prop keys at any node of the chain resolve to
the same canonical prop name (the condition under which the `HashMap` rebuild
of `_resolve_aliases` never overwrites an entry and hence loses no value). -/
def noPropCollisions (cmd : Command) : Args → Prop
  | .leaf _ _ pr =>
    pr.Pairwise (fun pv1 pv2 => canonPropKey cmd pv1.1 ≠ canonPropKey cmd pv2.1)
  | .node _ _ pr sa =>
    pr.Pairwise (fun pv1 pv2 => canonPropKey cmd pv1.1 ≠ canonPropKey cmd pv2.1)
    ∧ ∀ sd, cmd.get_subcommand sa.name = some sd → noPropCollisions sd sa

/-- The string `h`. -/
def hStr : Str := ['h']

/-- The string `help`. -/
def helpStr : Str := ['h', 'e', 'l', 'p']

/-- `requested_help` of `src/command/help.rs`: walk the subcommand chain from
the root and return the name of the first node whose flag set contains `h` or
`help`. -/
def requested_help : Args → Option Str
  | .leaf n fl _ =>
    if fl.contains hStr || fl.contains helpStr then some n else none
  | .node n fl _ sa =>
    if fl.contains hStr || fl.contains helpStr then some n else requested_help sa

/-- The root-first list of nodes on the subcommand chain of an args tree. -/
def chain : Args → List Args
  | .leaf n fl pr => [.leaf n fl pr]
  | .node n fl pr sa => .node n fl pr sa :: chain sa

/-- Whether a node's flag set contains `h` or `help`. -/
def hasHelpFlag (a : Args) : Bool :=
  a.flags.contains hStr || a.flags.contains helpStr

/-- Erase the props of every node on the chain (used to state that
`requested_help` never consults props). -/
def erasePropsA : Args → Args
  | .leaf n fl _ => .leaf n fl []
  | .node n fl _ sa => .node n fl [] (erasePropsA sa)

/-- Named concrete schema: two required props `a` and `b` in that definition
order (used to exhibit the order dependence of the missing-required report). -/
def cmdTwoRequired : Command :=
  Command.mk [['c']] []
    [PropDef.mk [] true [['a']], PropDef.mk [] true [['b']]] [] []

/-- Named concrete schema: a single required prop `a`. -/
def cmdOneRequired : Command :=
  Command.mk [['c']] [] [PropDef.mk [] true [['a']]] [] []

/-- Named concrete schema: a required prop `level` with alias `l`. -/
def cmdLevel : Command :=
  Command.mk [['a','p','p']] []
    [PropDef.mk [] true [['l','e','v','e','l'], ['l']]] [] []

/-- Named concrete schema: root with one child `sub1`, which has one child
`sub2` (used for the depth-first validation witness). -/
def cmdSub1 : Command :=
  Command.mk [['s','u','b','1']] [] [] [] [Command.mk [['s','u','b','2']] [] [] [] []]

def cmdRoot : Command :=
  Command.mk [['r','o','o','t']] [] [] [] [cmdSub1]

/-- The tokens that the `remove_option` scan recognizes as carrying the given
name: a bare `Switch` or a `SwitchWithValue`. -/
def optNamed (name : Str) (a : Arg) : Prop :=
  a = Arg.Switch name ∨ ∃ v, a = Arg.SwitchWithValue name v

theorem removeFlagL_append (name : Str) (pre l : List Arg)
    (h : ∀ a ∈ pre, a ≠ Arg.Switch name) :
    removeFlagL name (pre ++ l)
      = ((removeFlagL name l).1, pre ++ (removeFlagL name l).2) := by
  induction pre with
  | nil => simp
  | cons a pre ih =>
    have ha : a ≠ Arg.Switch name := h a (by simp)
    have ih2 := ih (fun x hx => h x (by simp [hx]))
    cases a with
    | Switch n =>
      have hn : ¬ n = name := fun he => ha (by rw [he])
      simp [removeFlagL, hn, ih2]
    | SwitchWithValue n v => simp [removeFlagL, ih2]
    | Operand q w => simp [removeFlagL, ih2]
    | Empty => simp [removeFlagL, ih2]

theorem removeOptionL_append (name : Str) (pre l : List Arg)
    (h : ∀ a ∈ pre, ¬ optNamed name a) :
    removeOptionL name (pre ++ l)
      = ((removeOptionL name l).1, pre ++ (removeOptionL name l).2) := by
  induction pre with
  | nil => simp
  | cons a pre ih =>
    have ha : ¬ optNamed name a := h a (by simp)
    have ih2 := ih (fun x hx => h x (by simp [hx]))
    cases a with
    | Switch n =>
      have hn : ¬ n = name := fun he => ha (Or.inl (by rw [he]))
      simp [removeOptionL, hn, ih2]
    | SwitchWithValue n v =>
      have hn : ¬ n = name := fun he => ha (Or.inr ⟨v, by rw [he]⟩)
      simp [removeOptionL, hn, ih2]
    | Operand q w => simp [removeOptionL, ih2]
    | Empty => simp [removeOptionL, ih2]

theorem removeOptionL_none (name : Str) (l : List Arg)
    (h : ∀ a ∈ l, ¬ optNamed name a) :
    removeOptionL name l = (none, l) := by
  induction l with
  | nil => simp [removeOptionL]
  | cons a l ih =>
    have ha : ¬ optNamed name a := h a (by simp)
    have ih2 := ih (fun x hx => h x (by simp [hx]))
    cases a with
    | Switch n =>
      have hn : ¬ n = name := fun he => ha (Or.inl (by rw [he]))
      simp [removeOptionL, hn, ih2]
    | SwitchWithValue n v =>
      have hn : ¬ n = name := fun he => ha (Or.inr ⟨v, by rw [he]⟩)
      simp [removeOptionL, hn, ih2]
    | Operand q w => simp [removeOptionL, ih2]
    | Empty => simp [removeOptionL, ih2]

theorem removeOperandL_append (pre l : List Arg)
    (h : ∀ a ∈ pre, ∀ q w, a ≠ Arg.Operand q w) :
    removeOperandL (pre ++ l) = ((removeOperandL l).1, pre ++ (removeOperandL l).2) := by
  induction pre with
  | nil => simp
  | cons a pre ih =>
    have ha := h a (by simp)
    have ih2 := ih (fun x hx => h x (by simp [hx]))
    cases a with
    | Switch n => simp [removeOperandL, ih2]
    | SwitchWithValue n v => simp [removeOperandL, ih2]
    | Operand q w => exact absurd rfl (ha q w)
    | Empty => simp [removeOperandL, ih2]

/-- Claim C1.  The claim-order contract for the ambiguous `Flag` `Operand`
pair: in a bag whose first token carrying `name` is a bare `Switch`
immediately followed by the bag's first `Operand`, and carrying `name`
nowhere else, (i) `remove_option(name)` called first consumes both tokens and
returns the operand text; (ii) `remove_flag(name)` called first consumes only
the `Switch` and returns `true`; after which (iii) `remove_option(name)`
returns `none` and consumes nothing, and (iv) `remove_operand()` returns the
operand text. -/
theorem claim_order_contract :
  ∀ (pn : Str) (ign : List Str) (pre post : List Arg) (name : Str) (pos : Nat) (v : Str),
    (∀ a ∈ pre, ¬ optNamed name a) →
    (∀ a ∈ pre, ∀ q w, a ≠ Arg.Operand q w) →
    (∀ a ∈ post, ¬ optNamed name a) →
    (ArgumentBag.remove_option ⟨pn, pre ++ Arg.Switch name :: Arg.Operand pos v :: post, ign⟩ name
      = (some v, ⟨pn, pre ++ Arg.Empty :: Arg.Empty :: post, ign⟩))
    ∧ (ArgumentBag.remove_flag ⟨pn, pre ++ Arg.Switch name :: Arg.Operand pos v :: post, ign⟩ name
      = (true, ⟨pn, pre ++ Arg.Empty :: Arg.Operand pos v :: post, ign⟩))
    ∧ (ArgumentBag.remove_option ⟨pn, pre ++ Arg.Empty :: Arg.Operand pos v :: post, ign⟩ name
      = (none, ⟨pn, pre ++ Arg.Empty :: Arg.Operand pos v :: post, ign⟩))
    ∧ (ArgumentBag.remove_operand ⟨pn, pre ++ Arg.Empty :: Arg.Operand pos v :: post, ign⟩
      = (some v, ⟨pn, pre ++ Arg.Empty :: Arg.Empty :: post, ign⟩)) := by
  intro pn ign pre post name pos v hpre hpreOp hpost
  have hflag : ∀ a ∈ pre, a ≠ Arg.Switch name := by
    intro a ha he
    exact hpre a ha (Or.inl he)
  refine ⟨?_, ?_, ?_, ?_⟩
  · have h1 := removeOptionL_append name pre
      (Arg.Switch name :: Arg.Operand pos v :: post) hpre
    have h2 : removeOptionL name (Arg.Switch name :: Arg.Operand pos v :: post)
        = (some v, Arg.Empty :: Arg.Empty :: post) := by simp [removeOptionL]
    simp [ArgumentBag.remove_option, h1, h2]
  · have h1 := removeFlagL_append name pre
      (Arg.Switch name :: Arg.Operand pos v :: post) hflag
    have h2 : removeFlagL name (Arg.Switch name :: Arg.Operand pos v :: post)
        = (true, Arg.Empty :: Arg.Operand pos v :: post) := by simp [removeFlagL]
    simp [ArgumentBag.remove_flag, h1, h2]
  · have hall : ∀ a ∈ pre ++ Arg.Empty :: Arg.Operand pos v :: post, ¬ optNamed name a := by
      intro a ha
      rcases List.mem_append.mp ha with h | h
      · exact hpre a h
      · rcases List.mem_cons.mp h with h | h
        · subst h; intro hc
          rcases hc with hc | ⟨w, hc⟩ <;> simp at hc
        · rcases List.mem_cons.mp h with h | h
          · subst h; intro hc
            rcases hc with hc | ⟨w, hc⟩ <;> simp at hc
          · exact hpost a h
    have h1 := removeOptionL_none name _ hall
    simp [ArgumentBag.remove_option, h1]
  · have hpreOp2 : ∀ a ∈ pre ++ [Arg.Empty], ∀ q w, a ≠ Arg.Operand q w := by
      intro a ha
      rcases List.mem_append.mp ha with h | h
      · exact hpreOp a h
      · rcases List.mem_cons.mp h with h | h
        · subst h; intro q w hc; simp at hc
        · simp at h
    have e : pre ++ Arg.Empty :: Arg.Operand pos v :: post
        = (pre ++ [Arg.Empty]) ++ Arg.Operand pos v :: post := by simp
    have h1 := removeOperandL_append (pre ++ [Arg.Empty]) (Arg.Operand pos v :: post) hpreOp2
    have h2 : removeOperandL (Arg.Operand pos v :: post) = (some v, Arg.Empty :: post) := by
      simp [removeOperandL]
    simp only [ArgumentBag.remove_operand, e, h1, h2]
    simp

/-- Witness for claim C1, on the spec's own example `parse ["p","--opt","v"]`:
the bag holds a `Switch opt` followed by `Operand v`, and the four extraction
behaviors hold for it. -/
theorem claim_order_contract_witness :
  (parse [['p'], ['-','-','o','p','t'], ['v']]
    = some (Except.ok ⟨['p'], [Arg.Switch ['o','p','t'], Arg.Operand 0 ['v']], []⟩))
  ∧ (ArgumentBag.remove_option ⟨['p'], [Arg.Switch ['o','p','t'], Arg.Operand 0 ['v']], []⟩ ['o','p','t']
      = (some ['v'], ⟨['p'], [Arg.Empty, Arg.Empty], []⟩))
  ∧ (ArgumentBag.remove_flag ⟨['p'], [Arg.Switch ['o','p','t'], Arg.Operand 0 ['v']], []⟩ ['o','p','t']
      = (true, ⟨['p'], [Arg.Empty, Arg.Operand 0 ['v']], []⟩))
  ∧ (ArgumentBag.remove_option ⟨['p'], [Arg.Empty, Arg.Operand 0 ['v']], []⟩ ['o','p','t']
      = (none, ⟨['p'], [Arg.Empty, Arg.Operand 0 ['v']], []⟩))
  ∧ (ArgumentBag.remove_operand ⟨['p'], [Arg.Empty, Arg.Operand 0 ['v']], []⟩
      = (some ['v'], ⟨['p'], [Arg.Empty, Arg.Empty], []⟩)) := by
  have h := claim_order_contract ['p'] [] [] [] ['o','p','t'] 0 ['v']
    (by simp) (by simp) (by simp)
  simpa using ⟨rfl, h⟩

/-- Claim C10.  Short-circuit in option extraction: when the first token
carrying `name` is a bare `Switch` whose successor (if any) is not an
`Operand`, `remove_option(name)` returns `none` and consumes nothing — it does
not continue scanning, even if a matching `SwitchWithValue` occurs later. -/
theorem remove_option_short_circuit :
  ∀ (pn : Str) (ign : List Str) (pre : List Arg) (name : Str) (rest : List Arg),
    (∀ a ∈ pre, ¬ optNamed name a) →
    (∀ q w tl, rest ≠ Arg.Operand q w :: tl) →
    ArgumentBag.remove_option ⟨pn, pre ++ Arg.Switch name :: rest, ign⟩ name
      = (none, ⟨pn, pre ++ Arg.Switch name :: rest, ign⟩) := by
  intro pn ign pre name rest hpre hrest
  have h1 := removeOptionL_append name pre (Arg.Switch name :: rest) hpre
  have h2 : removeOptionL name (Arg.Switch name :: rest) = (none, Arg.Switch name :: rest) := by
    cases rest with
    | nil => simp [removeOptionL]
    | cons b tl =>
      cases b with
      | Switch n => simp [removeOptionL]
      | SwitchWithValue n v => simp [removeOptionL]
      | Operand q w => exact absurd rfl (hrest q w tl)
      | Empty => simp [removeOptionL]
  simp [ArgumentBag.remove_option, h1, h2]

/-- Witness for claim C10, on the example `parse ["p","--opt","--opt=v"]`:
the bag holds `Switch opt` followed by `SwitchWithValue opt v`, and
`remove_option("opt")` returns `none` leaving the bag unchanged even though a
same-named option token is still present. -/
theorem remove_option_short_circuit_witness :
  (parse [['p'], ['-','-','o','p','t'], ['-','-','o','p','t','=','v']]
    = some (Except.ok ⟨['p'],
        [Arg.Switch ['o','p','t'], Arg.SwitchWithValue ['o','p','t'] ['v']], []⟩))
  ∧ (ArgumentBag.remove_option
      ⟨['p'], [Arg.Switch ['o','p','t'], Arg.SwitchWithValue ['o','p','t'] ['v']], []⟩ ['o','p','t']
      = (none, ⟨['p'], [Arg.Switch ['o','p','t'], Arg.SwitchWithValue ['o','p','t'] ['v']], []⟩)) := by
  have h := remove_option_short_circuit ['p'] [] [] ['o','p','t']
    [Arg.SwitchWithValue ['o','p','t'] ['v']] (by simp)
    (by intro q w tl hc; simp at hc)
  simpa using ⟨rfl, h⟩


theorem splitOnce_eq (c : Char) (s a b : Str) (h : splitOnce c s = some (a, b)) :
    s = a ++ c :: b := by
  induction s generalizing a b with
  | nil => simp [splitOnce] at h
  | cons x xs ih =>
    by_cases hx : x = c
    · subst hx
      simp [splitOnce] at h
      obtain ⟨h1, h2⟩ := h
      subst h1; subst h2
      rfl
    · simp [splitOnce, hx, Option.map_eq_some'] at h
      obtain ⟨r1, hr, ha⟩ := h
      rw [← ha, ih r1 b hr]
      rfl

theorem lexOne_ok_render (s : Str) (n n2 : Nat) (a : Arg)
    (h : lexOne s n = Except.ok (a, n2)) : render a = s := by
  unfold lexOne at h
  split at h
  · rename_i v
    split at h
    · rename_i name value heq
      split at h
      · simp at h
      · rename_i hlen
        simp at h
        obtain ⟨ha, hn⟩ := h
        subst ha
        have hv := splitOnce_eq '=' v name value heq
        have hne : ¬ name.length = 1 := by omega
        simp [render, hne, hv]
    · split at h
      · simp at h
      · rename_i hlen
        simp at h
        obtain ⟨ha, hn⟩ := h
        subst ha
        have hne : ¬ v.length = 1 := by omega
        simp [render, hne]
  · rename_i v hnot
    split at h
    · rename_i name value heq
      split at h
      · simp at h
      · rename_i hlen
        have h1 : name.length = 1 := by omega
        simp at h
        obtain ⟨ha, hn⟩ := h
        subst ha
        have hv := splitOnce_eq '=' v name value heq
        simp [render, h1, hv]
    · split at h
      · simp at h
      · rename_i hlen
        have h1 : v.length = 1 := by omega
        simp at h
        obtain ⟨ha, hn⟩ := h
        subst ha
        simp [render, h1]
  · simp at h
    obtain ⟨ha, hn⟩ := h
    subst ha
    simp [render]

theorem lexOne_ok_ne_empty (s : Str) (n n2 : Nat) (a : Arg)
    (h : lexOne s n = Except.ok (a, n2)) : a ≠ Arg.Empty := by
  unfold lexOne at h
  split at h
  · split at h
    · split at h
      · simp at h
      · simp at h
        rw [← h.1]
        simp
    · split at h
      · simp at h
      · simp at h
        rw [← h.1]
        simp
  · split at h
    · split at h
      · simp at h
      · simp at h
        rw [← h.1]
        simp
    · split at h
      · simp at h
      · simp at h
        rw [← h.1]
        simp
  · simp at h
    rw [← h.1]
    simp

theorem lexAll_ok_elim (args : List Str) (n : Nat) (toks : List Arg) (ign : List Str)
    (h : lexAll args n = Except.ok (toks, ign)) :
    toks.map render = args.takeWhile (fun s => decide (s ≠ ['-','-']))
    ∧ ∀ a ∈ toks, a ≠ Arg.Empty := by
  induction args generalizing n toks ign with
  | nil =>
    simp [lexAll] at h
    obtain ⟨h1, h2⟩ := h
    subst h1
    simp
  | cons x xs ih =>
    by_cases hx : x = ['-','-']
    · subst hx
      rw [lexAll, if_pos rfl] at h
      simp at h
      obtain ⟨h1, h2⟩ := h
      subst h1
      simp [List.takeWhile_cons]
    · rw [lexAll, if_neg hx] at h
      cases hl : lexOne x n with
      | error e => rw [hl] at h; simp at h
      | ok p =>
        obtain ⟨a, m⟩ := p
        rw [hl] at h
        dsimp only at h
        cases hrec : lexAll xs m with
        | error e => rw [hrec] at h; simp at h
        | ok q =>
          obtain ⟨toks2, ign2⟩ := q
          rw [hrec] at h
          simp at h
          obtain ⟨h1, h2⟩ := h
          subst h1
          have ihr := ih m toks2 ign2 hrec
          constructor
          · simp [List.takeWhile_cons, hx, lexOne_ok_render x n m a hl, ihr.1]
          · intro b hb
            rcases List.mem_cons.mp hb with hb | hb
            · rw [hb]
              exact lexOne_ok_ne_empty x n m a hl
            · exact ihr.2 b hb

theorem removeRemainingL_no_empty (l : List Arg) (h : ∀ a ∈ l, a ≠ Arg.Empty) :
    removeRemainingL l = (l.map render, l.map (fun _ => Arg.Empty)) := by
  induction l with
  | nil => simp [removeRemainingL]
  | cons a l ih =>
    have ha := h a (by simp)
    have ih2 := ih (fun x hx => h x (by simp [hx]))
    cases a with
    | Empty => exact absurd rfl ha
    | Switch n => simp [removeRemainingL, ih2]
    | SwitchWithValue n v => simp [removeRemainingL, ih2]
    | Operand q w => simp [removeRemainingL, ih2]

theorem removeRemainingL_all_empty (l : List Arg) (h : ∀ a ∈ l, a = Arg.Empty) :
    removeRemainingL l = ([], l) := by
  induction l with
  | nil => simp [removeRemainingL]
  | cons a l ih =>
    have ha := h a (by simp)
    subst ha
    have ih2 := ih (fun x hx => h x (by simp [hx]))
    simp [removeRemainingL, ih2]

/-- Claim C5.  Round trip: on an input (of non-empty elements) that parses
successfully, the first `remove_remaining` call on the fresh bag returns
exactly the input elements after the program name and before any `--` marker,
in their original order (each token's canonical rendering reproduces the raw
element it was lexed from); any subsequent call returns the empty sequence and
changes nothing. -/
theorem remove_remaining_round_trip :
  ∀ (input : List Str) (bag : ArgumentBag),
    (∀ s ∈ input, s ≠ []) →
    parse input = some (Except.ok bag) →
    (bag.remove_remaining.1 = input.tail.takeWhile (fun s => decide (s ≠ ['-','-'])))
    ∧ bag.remove_remaining.2.remove_remaining = ([], bag.remove_remaining.2) := by
  intro input bag hne hp
  have hfilter : input.filter (fun s => !s.isEmpty) = input := by
    rw [List.filter_eq_self]
    intro s hs
    cases hcs : s with
    | nil => exact absurd hcs (hne s hs)
    | cons c t => simp
  unfold parse at hp
  rw [hfilter] at hp
  cases input with
  | nil => simp at hp
  | cons p rest =>
    dsimp only at hp
    cases hla : lexAll rest 0 with
    | error e => rw [hla] at hp; simp at hp
    | ok q =>
      obtain ⟨toks, ign⟩ := q
      rw [hla] at hp
      simp at hp
      have he := lexAll_ok_elim rest 0 toks ign hla
      subst hp
      constructor
      · show (removeRemainingL toks).1 = _
        rw [removeRemainingL_no_empty toks he.2]
        exact he.1
      · have h2 := removeRemainingL_all_empty (toks.map (fun _ => Arg.Empty))
          (by intro a ha; rcases List.mem_map.mp ha with ⟨b, hb, hab⟩; exact hab.symm)
        have hsnd : (ArgumentBag.remove_remaining ⟨p, toks, ign⟩).2
            = ⟨p, toks.map (fun _ => Arg.Empty), ign⟩ := by
          unfold ArgumentBag.remove_remaining
          rw [removeRemainingL_no_empty toks he.2]
        rw [hsnd]
        unfold ArgumentBag.remove_remaining
        rw [h2]

/-- Witness for claim C5 on `parse ["p","--ab","x","--","z"]`: the fresh bag
drains to the canonical renderings `["--ab","x"]` (the elements after the
program name and before `--`), and a second call returns nothing. -/
theorem remove_remaining_round_trip_witness :
  (parse [['p'], ['-','-','a','b'], ['x'], ['-','-'], ['z']]
    = some (Except.ok ⟨['p'], [Arg.Switch ['a','b'], Arg.Operand 0 ['x']], [['z']]⟩))
  ∧ (ArgumentBag.remove_remaining
      ⟨['p'], [Arg.Switch ['a','b'], Arg.Operand 0 ['x']], [['z']]⟩).1
      = [['-','-','a','b'], ['x']]
  ∧ ArgumentBag.remove_remaining ⟨['p'], [Arg.Empty, Arg.Empty], [['z']]⟩
      = ([], ⟨['p'], [Arg.Empty, Arg.Empty], [['z']]⟩) := by
  have h := remove_remaining_round_trip [['p'], ['-','-','a','b'], ['x'], ['-','-'], ['z']]
    ⟨['p'], [Arg.Switch ['a','b'], Arg.Operand 0 ['x']], [['z']]⟩
    (by decide) rfl
  exact ⟨rfl, h.1.trans (by decide), h.2⟩

/-- Counterexample to claim C3: on the empty input, `parse` hits the
`expect("missing program name")` panic (modelled as `none`) instead of
succeeding with an empty program name. -/
theorem parse_empty_input_counterexample :
  parse ([] : List Str) = none
  ∧ parse ([] : List Str) ≠ some (Except.ok ⟨[], [], []⟩) := by
  exact ⟨rfl, by decide⟩

/-- Claim C3 (amended): `parse` panics (modelled `none`) exactly when no input
element survives the empty-string filter — in particular on the empty input —
rather than succeeding with an empty program name. -/
theorem parse_none_iff_no_surviving_element :
  ∀ input : List Str,
    parse input = none ↔ input.filter (fun s => !s.isEmpty) = [] := by
  intro input
  unfold parse
  cases h : input.filter (fun s => !s.isEmpty) with
  | nil => simp
  | cons p rest => simp

/-- Counterexample to claim C4: a whitespace-only element is not skipped by
the tokenizer of `src/lib.rs` (only empty strings are filtered out).  On
`parse ["p"," ","x"]` the element `" "` becomes an operand of its own at
position 0, pushing `"x"` to position 1, so the result differs from parsing
with the whitespace element deleted. -/
theorem whitespace_not_skipped_counterexample :
  parse [['p'], [' '], ['x']]
    = some (Except.ok ⟨['p'], [Arg.Operand 0 [' '], Arg.Operand 1 ['x']], []⟩)
  ∧ parse [['p'], [' '], ['x']] ≠ parse [['p'], ['x']] := by
  exact ⟨rfl, by decide⟩

/-- Claim C4 (amended): elements that are empty (zero-length) are skipped by
the tokenizer — they produce no token, no error, and do not advance the
operand counter, so parsing behaves exactly as if they were deleted from the
input; a non-empty element that does not begin with a dash (in particular a
whitespace-only element) is not skipped: it lexes as an ordinary operand and
advances the operand counter. -/
theorem empty_elements_skipped :
  (∀ input : List Str, parse input = parse (input.filter (fun s => !s.isEmpty)))
  ∧ (∀ (n : Nat) (s : Str), s ≠ [] → s.head? ≠ some '-' →
      lexOne s n = Except.ok (Arg.Operand n s, n + 1)) := by
  constructor
  · intro input
    unfold parse
    rw [List.filter_filter]
    simp
  · intro n s hne hd
    cases s with
    | nil => exact absurd rfl hne
    | cons c t =>
      have hc : ¬ c = '-' := by
        intro he
        exact hd (by rw [he]; rfl)
      unfold lexOne
      split
      · rename_i v heq
        rw [List.cons.injEq] at heq
        exact absurd heq.1 hc
      · rename_i v heq hnot
        rw [List.cons.injEq] at hnot
        exact absurd hnot.1 hc
      · rfl

/-- Witness for claim C4 (amended), at the whitespace-only element `" "`: it
is lexed as an operand that advances the counter, and the parse of an input
containing an empty element equals the parse with that element removed. -/
theorem empty_elements_skipped_witness :
  lexOne [' '] 0 = Except.ok (Arg.Operand 0 [' '], 1)
  ∧ parse [['p'], [], ['x']] = parse [['p'], ['x']] := by
  constructor
  · exact empty_elements_skipped.2 0 [' '] (by decide) (by decide)
  · exact (empty_elements_skipped.1 [['p'], [], ['x']]).trans (by rfl)

theorem lexAll_append_error (pre : List Str) (n : Nat) (toks : List Arg) (ign : List Str)
    (bad : Str) (post : List Str) (e : ParseError)
    (hpre : ∀ s ∈ pre, s ≠ ['-','-'])
    (hok : lexAll pre n = Except.ok (toks, ign))
    (hbad : bad ≠ ['-','-'])
    (herr : ∀ m, lexOne bad m = Except.error e) :
    lexAll (pre ++ bad :: post) n = Except.error e := by
  induction pre generalizing n toks ign with
  | nil =>
    rw [List.nil_append, lexAll, if_neg hbad, herr n]
  | cons x xs ih =>
    have hx := hpre x (by simp)
    rw [lexAll, if_neg hx] at hok
    rw [List.cons_append, lexAll, if_neg hx]
    cases hl : lexOne x n with
    | error e2 => rw [hl] at hok; simp at hok
    | ok p =>
      obtain ⟨a, m⟩ := p
      rw [hl] at hok
      dsimp only at hok
      dsimp only
      cases hrec : lexAll xs m with
      | error e2 => rw [hrec] at hok; simp at hok
      | ok q =>
        obtain ⟨toks2, ign2⟩ := q
        rw [ih m toks2 ign2 (fun s hs => hpre s (by simp [hs])) hrec]

/-- Claim C6.  Lexical error cases and atomicity: `parse ["p","--s"]` fails
with `MalformedFlag "--s"`, `parse ["p","--=value"]` with
`MalformedOption "--=value"`, `parse ["p","-long"]` with
`MalformedFlag "-long"` (the error carries the raw element); and in general,
if the elements before some element `bad` all lex successfully (with no `--`
marker among them) while `bad` fails to lex, then `parse` returns exactly that
first error no matter what follows `bad` — no partial bag is returned (an
error result carries no bag by construction). -/
theorem lexical_errors_and_atomicity :
  (parse [['p'], ['-','-','s']]
    = some (Except.error (ParseError.MalformedFlag ['-','-','s'])))
  ∧ (parse [['p'], ['-','-','=','v','a','l','u','e']]
    = some (Except.error (ParseError.MalformedOption ['-','-','=','v','a','l','u','e'])))
  ∧ (parse [['p'], ['-','l','o','n','g']]
    = some (Except.error (ParseError.MalformedFlag ['-','l','o','n','g'])))
  ∧ ∀ (p : Str) (pre : List Str) (bad : Str) (post : List Str) (e : ParseError)
      (toks : List Arg) (ign : List Str),
      (∀ s ∈ p :: (pre ++ bad :: post), s ≠ []) →
      (∀ s ∈ pre, s ≠ ['-','-']) →
      lexAll pre 0 = Except.ok (toks, ign) →
      bad ≠ ['-','-'] →
      (∀ m, lexOne bad m = Except.error e) →
      parse (p :: (pre ++ bad :: post)) = some (Except.error e) := by
  refine ⟨rfl, rfl, rfl, ?_⟩
  intro p pre bad post e toks ign hne hpre hok hbad herr
  have hfilter : (p :: (pre ++ bad :: post)).filter (fun s => !s.isEmpty)
      = p :: (pre ++ bad :: post) := by
    rw [List.filter_eq_self]
    intro s hs
    cases hcs : s with
    | nil => exact absurd hcs (hne s hs)
    | cons c t => simp
  unfold parse
  rw [hfilter]
  dsimp only
  rw [lexAll_append_error pre 0 toks ign bad post e hpre hok hbad herr]

/-- Witness for claim C6's general abort property, on
`parse ["p","a","--s","z"]`: the leading operand lexes fine, `--s` is the
first lexical error, and the trailing element is never reached. -/
theorem lexical_errors_and_atomicity_witness :
  parse [['p'], ['a'], ['-','-','s'], ['z']]
    = some (Except.error (ParseError.MalformedFlag ['-','-','s'])) := by
  exact lexical_errors_and_atomicity.2.2.2 ['p'] [['a']] ['-','-','s'] [['z']]
    (ParseError.MalformedFlag ['-','-','s']) [Arg.Operand 0 ['a']] []
    (by decide) (by decide) rfl (by decide) (fun m => rfl)

theorem nodeCheck_ok_elim (ord : List Str → List Str) (cmd : Command)
    (fl : List Str) (pr : List (Str × Str))
    (h : nodeCheck ord cmd fl pr = Except.ok ()) :
    (∀ f ∈ fl, (cmd.get_flag f).isSome)
    ∧ (∀ pv ∈ pr, (cmd.get_prop pv.1).isSome)
    ∧ missingRequired ord cmd pr = [] := by
  unfold nodeCheck at h
  cases h1 : fl.find? (fun f => (cmd.get_flag f).isNone) with
  | some f => rw [h1] at h; simp at h
  | none =>
    rw [h1] at h
    dsimp only at h
    cases h2 : pr.find? (fun pv => (cmd.get_prop pv.1).isNone) with
    | some pv => rw [h2] at h; simp at h
    | none =>
      rw [h2] at h
      dsimp only at h
      cases h3 : (missingRequired ord cmd pr).head? with
      | some m => rw [h3] at h; simp at h
      | none =>
        refine ⟨?_, ?_, ?_⟩
        · intro f hf
          have hnone := List.find?_eq_none.mp h1 f hf
          cases hg : cmd.get_flag f with
          | none => exact absurd (by rw [hg]; rfl) hnone
          | some fd => rfl
        · intro pv hpv
          have hnone := List.find?_eq_none.mp h2 pv hpv
          cases hg : cmd.get_prop pv.1 with
          | none => exact absurd (by rw [hg]; rfl) hnone
          | some pd => rfl
        · exact List.head?_eq_none_iff.mp h3

theorem nodeCheck_missing (ord : List Str → List Str) (cmd : Command)
    (fl : List Str) (pr : List (Str × Str)) (m : Str)
    (hfl : ∀ f ∈ fl, (cmd.get_flag f).isSome)
    (hpr : ∀ pv ∈ pr, (cmd.get_prop pv.1).isSome)
    (hm : (missingRequired ord cmd pr).head? = some m) :
    nodeCheck ord cmd fl pr = Except.error (InvalidArguments.MissingRequiredOptions m) := by
  have h1 : fl.find? (fun f => (cmd.get_flag f).isNone) = none := by
    rw [List.find?_eq_none]
    intro f hf
    have := hfl f hf
    cases hg : cmd.get_flag f with
    | none => rw [hg] at this; simp at this
    | some fd => simp
  have h2 : pr.find? (fun pv => (cmd.get_prop pv.1).isNone) = none := by
    rw [List.find?_eq_none]
    intro pv hpv
    have := hpr pv hpv
    cases hg : cmd.get_prop pv.1 with
    | none => rw [hg] at this; simp at this
    | some pd => simp
  unfold nodeCheck
  rw [h1]
  dsimp only
  rw [h2]
  dsimp only
  rw [hm]

/-- Claim C2 (amended): when the per-node checks pass for flags and props but
some required prop is missing (in the definition-order reading,
`missingRequired id`), `validate` reports `MissingRequiredOptions m` where `m`
is one of the missing required canonical names — the head of the hash set's
iteration order `ord`, which the Rust standard library does not fix.  When
exactly one required prop is missing, the reported name is necessarily that
one. -/
theorem missing_required_reported :
  ∀ (ord : List Str → List Str) (cmd : Command) (n : Str)
    (fl : List Str) (pr : List (Str × Str)),
    (∀ l, List.Perm (ord l) l) →
    (∀ f ∈ fl, (cmd.get_flag f).isSome) →
    (∀ pv ∈ pr, (cmd.get_prop pv.1).isSome) →
    missingRequired id cmd pr ≠ [] →
    ∃ m, _validate ord cmd (Args.leaf n fl pr)
        = Except.error (InvalidArguments.MissingRequiredOptions m)
      ∧ m ∈ missingRequired id cmd pr
      ∧ ∀ m2, missingRequired id cmd pr = [m2] → m = m2 := by
  intro ord cmd n fl pr hord hfl hpr hmiss
  have hperm : List.Perm (missingRequired ord cmd pr) (missingRequired id cmd pr) := by
    unfold missingRequired
    exact List.Perm.filter _ (hord (requiredNames cmd))
  cases hcase : missingRequired ord cmd pr with
  | nil =>
    rw [hcase] at hperm
    exact absurd (List.Perm.nil_eq hperm).symm hmiss
  | cons m tl =>
    rw [hcase] at hperm
    refine ⟨m, ?_, ?_, ?_⟩
    · have hm : (missingRequired ord cmd pr).head? = some m := by rw [hcase]; rfl
      have hnc := nodeCheck_missing ord cmd fl pr m hfl hpr hm
      unfold _validate
      rw [hnc]
    · exact hperm.mem_iff.mp (by simp)
    · intro m2 hm2
      rw [hm2] at hperm
      have := List.perm_singleton.mp hperm
      rw [List.cons.injEq] at this
      exact this.1

/-- Witness for claim C2 (amended): with a single required prop `a` and no
supplied props, validation reports `MissingRequiredOptions "a"`. -/
theorem missing_required_reported_witness :
  _validate id cmdOneRequired (Args.leaf [] [] [])
    = Except.error (InvalidArguments.MissingRequiredOptions ['a']) := by
  obtain ⟨m, hm, hmem, huniq⟩ := missing_required_reported id cmdOneRequired [] [] []
    (fun l => List.Perm.refl l) (by simp) (by simp) (by decide)
  rw [huniq ['a'] rfl] at hm
  exact hm

/-- Counterexample to claim C2: with two required props `a`, `b` (definition
order) both missing, the reported name is the head of the `required_props`
hash-set iteration order, which the Rust standard library randomizes per
process.  Under the identity order the report is `a`; under the reversed
order — an equally legitimate iteration order (a permutation of the same
set) — it is `b` ≠ `a`.  The choice is therefore neither fixed to definition
order nor deterministic across runs. -/
theorem missing_required_order_counterexample :
  _validate id cmdTwoRequired (Args.leaf [] [] [])
    = Except.error (InvalidArguments.MissingRequiredOptions ['a'])
  ∧ _validate (fun l => l.reverse) cmdTwoRequired (Args.leaf [] [] [])
    = Except.error (InvalidArguments.MissingRequiredOptions ['b'])
  ∧ InvalidArguments.MissingRequiredOptions ['b']
      ≠ InvalidArguments.MissingRequiredOptions ['a']
  ∧ List.Perm (List.reverse (requiredNames cmdTwoRequired)) (requiredNames cmdTwoRequired) := by
  refine ⟨rfl, rfl, by decide, by decide⟩

/-- Claim C7.  Validation is depth-first and stops at the first failing node:
a failing per-node check yields that node's error whatever subtree hangs
below; once the node check passes, an args subcommand whose name matches no
child definition yields `UnrecognizedArgument` of kind command without the
subcommand's own contents being inspected; a node without subcommand passes
regardless of the children the definition declares; and with a matched child
definition, validation of the whole is exactly validation of the subtree. -/
theorem validate_depth_first :
  ∀ (ord : List Str → List Str) (cmd : Command) (n : Str)
    (fl : List Str) (pr : List (Str × Str)),
    (∀ e, nodeCheck ord cmd fl pr = Except.error e →
      _validate ord cmd (Args.leaf n fl pr) = Except.error e
      ∧ ∀ sa, _validate ord cmd (Args.node n fl pr sa) = Except.error e)
    ∧ (nodeCheck ord cmd fl pr = Except.ok () →
      _validate ord cmd (Args.leaf n fl pr) = Except.ok ())
    ∧ (∀ sn sf sp, nodeCheck ord cmd fl pr = Except.ok () →
      cmd.get_subcommand sn = none →
      (∀ ssub, _validate ord cmd (Args.node n fl pr (Args.node sn sf sp ssub))
          = Except.error (InvalidArguments.UnrecognizedArgument sn ArgumentKind.command))
      ∧ _validate ord cmd (Args.node n fl pr (Args.leaf sn sf sp))
          = Except.error (InvalidArguments.UnrecognizedArgument sn ArgumentKind.command))
    ∧ (∀ sa sd, nodeCheck ord cmd fl pr = Except.ok () →
      cmd.get_subcommand sa.name = some sd →
      _validate ord cmd (Args.node n fl pr sa) = _validate ord sd sa) := by
  intro ord cmd n fl pr
  refine ⟨?_, ?_, ?_, ?_⟩
  · intro e he
    constructor
    · simp only [_validate]
      rw [he]
    · intro sa
      simp only [_validate]
      rw [he]
  · intro hok
    simp only [_validate]
    rw [hok]
  · intro sn sf sp hok hsub
    constructor
    · intro ssub
      simp only [_validate]
      rw [hok]
      dsimp only
      rw [show Args.name (Args.node sn sf sp ssub) = sn from rfl, hsub]
    · simp only [_validate]
      rw [hok]
      dsimp only
      rw [show Args.name (Args.leaf sn sf sp) = sn from rfl, hsub]
  · intro sa sd hok hsub
    conv_lhs => simp only [_validate]
    rw [hok]
    dsimp only
    rw [hsub]

/-- Witness for claim C7, on the 3-level schema `root` > `sub1` > `sub2`: an
args chain naming an unknown subcommand `nope` at depth 2 fails with
`UnrecognizedArgument nope` of kind command (whatever hangs below `nope`),
validation of the root chain reduces to validation of the `sub1` subtree, an
unknown flag at the root yields that node's error with the subtree arbitrary,
and a subcommand-free node validates although children are declared. -/
theorem validate_depth_first_witness :
  (_validate id cmdRoot
      (Args.node ['r','o','o','t'] [] []
        (Args.node ['s','u','b','1'] [] [] (Args.leaf ['n','o','p','e'] [] [])))
    = _validate id cmdSub1
      (Args.node ['s','u','b','1'] [] [] (Args.leaf ['n','o','p','e'] [] [])))
  ∧ (_validate id cmdSub1
      (Args.node ['s','u','b','1'] [] [] (Args.leaf ['n','o','p','e'] [] []))
    = Except.error (InvalidArguments.UnrecognizedArgument ['n','o','p','e'] ArgumentKind.command))
  ∧ (_validate id cmdRoot
      (Args.node ['r','o','o','t'] [['b','a','d']] [] (Args.leaf ['n','o','p','e'] [] []))
    = Except.error (InvalidArguments.UnrecognizedArgument ['b','a','d'] ArgumentKind.flag))
  ∧ (_validate id cmdRoot (Args.leaf ['r','o','o','t'] [] []) = Except.ok ()) := by
  refine ⟨?_, ?_, ?_, ?_⟩
  · exact (validate_depth_first id cmdRoot ['r','o','o','t'] [] []).2.2.2
      (Args.node ['s','u','b','1'] [] [] (Args.leaf ['n','o','p','e'] [] [])) cmdSub1
      rfl rfl
  · exact ((validate_depth_first id cmdSub1 ['s','u','b','1'] [] []).2.2.1
      ['n','o','p','e'] [] [] rfl rfl).2
  · exact ((validate_depth_first id cmdRoot ['r','o','o','t'] [['b','a','d']] []).1
      (InvalidArguments.UnrecognizedArgument ['b','a','d'] ArgumentKind.flag) rfl).2
      (Args.leaf ['n','o','p','e'] [] [])
  · exact (validate_depth_first id cmdRoot ['r','o','o','t'] [] []).2.1 rfl

theorem canonFlagsM_eq_map (cmd : Command) (fl : List Str)
    (h : ∀ f ∈ fl, (cmd.get_flag f).isSome) :
    canonFlagsM cmd fl = some (fl.map (canonFlagName cmd)) := by
  induction fl with
  | nil => rfl
  | cons f fl ih =>
    have hf := h f (by simp)
    cases hg : cmd.get_flag f with
    | none => rw [hg] at hf; simp at hf
    | some fd =>
      have ih2 := ih (fun x hx => h x (by simp [hx]))
      simp [canonFlagsM, hg, ih2, canonFlagName]

theorem insertAssoc_not_mem (k : Str) (v : Str) (m : List (Str × Str))
    (h : ∀ kv ∈ m, kv.1 ≠ k) : insertAssoc k v m = m ++ [(k, v)] := by
  induction m with
  | nil => rfl
  | cons kv rest ih =>
    have hk := h kv (by simp)
    have ih2 := ih (fun x hx => h x (by simp [hx]))
    simp [insertAssoc, hk, ih2]

theorem canonPropsGo_eq_append (cmd : Command) (pr : List (Str × Str)) :
    ∀ acc : List (Str × Str),
    (∀ pv ∈ pr, (cmd.get_prop pv.1).isSome) →
    pr.Pairwise (fun pv1 pv2 => canonPropKey cmd pv1.1 ≠ canonPropKey cmd pv2.1) →
    (∀ pv ∈ pr, ∀ kv ∈ acc, kv.1 ≠ canonPropKey cmd pv.1) →
    canonPropsGo cmd acc pr
      = some (acc ++ pr.map (fun pv => (canonPropKey cmd pv.1, pv.2))) := by
  induction pr with
  | nil =>
    intro acc _ _ _
    simp [canonPropsGo]
  | cons pv rest ih =>
    intro acc hsome hpair hacc
    have hp := hsome pv (by simp)
    cases hg : cmd.get_prop pv.1 with
    | none => rw [hg] at hp; simp at hp
    | some pd =>
      have hkey : canonPropKey cmd pv.1 = pd.name := by simp [canonPropKey, hg]
      have hins : insertAssoc pd.name pv.2 acc = acc ++ [(pd.name, pv.2)] := by
        apply insertAssoc_not_mem
        intro kv hkv
        have := hacc pv (by simp) kv hkv
        rw [hkey] at this
        exact this
      rw [List.pairwise_cons] at hpair
      have hacc2 : ∀ pv2 ∈ rest, ∀ kv ∈ acc ++ [(pd.name, pv.2)],
          kv.1 ≠ canonPropKey cmd pv2.1 := by
        intro pv2 hpv2 kv hkv
        rcases List.mem_append.mp hkv with hkv | hkv
        · exact hacc pv2 (by simp [hpv2]) kv hkv
        · rcases List.mem_cons.mp hkv with hkv | hkv
          · rw [hkv]
            show pd.name ≠ canonPropKey cmd pv2.1
            rw [← hkey]
            exact hpair.1 pv2 hpv2
          · simp at hkv
      have ih2 := ih (acc ++ [(pd.name, pv.2)])
        (fun x hx => hsome x (by simp [hx])) hpair.2 hacc2
      simp only [canonPropsGo, hg]
      rw [hins, ih2]
      simp [hkey]

theorem canonPropsM_eq_map (cmd : Command) (pr : List (Str × Str))
    (h : ∀ pv ∈ pr, (cmd.get_prop pv.1).isSome)
    (hpair : pr.Pairwise (fun pv1 pv2 => canonPropKey cmd pv1.1 ≠ canonPropKey cmd pv2.1)) :
    canonPropsM cmd pr = some (pr.map (fun pv => (canonPropKey cmd pv.1, pv.2))) := by
  unfold canonPropsM
  have h0 : ∀ pv ∈ pr, ∀ kv ∈ ([] : List (Str × Str)), kv.1 ≠ canonPropKey cmd pv.1 := by
    intro pv _ kv hkv
    simp at hkv
  have := canonPropsGo_eq_append cmd pr [] h hpair h0
  simpa using this

/-- Counterexample to claim C8: alias resolution does not leave prop values
unchanged in general.  With the schema requiring prop `level` (alias `l`) and
the validated args props `level=x, l=y`, the `HashMap` rebuild inserts both
values under the single canonical key `level`, so the second insert overwrites
the first and the value `x` is silently dropped — the result differs from the
claim's elementwise key rewrite (`resolveAliasesSpec`), which keeps both
pairs. -/
theorem resolve_aliases_collision_counterexample :
  (_validate id cmdLevel
      (Args.leaf ['a','p','p'] [] [(['l','e','v','e','l'], ['x']), (['l'], ['y'])])
    = Except.ok ())
  ∧ (_resolve_aliases cmdLevel
      (Args.leaf ['a','p','p'] [] [(['l','e','v','e','l'], ['x']), (['l'], ['y'])])
    = some (Args.leaf ['a','p','p'] [] [(['l','e','v','e','l'], ['y'])]))
  ∧ (resolveAliasesSpec cmdLevel
      (Args.leaf ['a','p','p'] [] [(['l','e','v','e','l'], ['x']), (['l'], ['y'])])
    = Args.leaf ['a','p','p'] []
        [(['l','e','v','e','l'], ['x']), (['l','e','v','e','l'], ['y'])])
  ∧ (some (Args.leaf ['a','p','p'] [] [(['l','e','v','e','l'], ['y'])])
      ≠ some (Args.leaf ['a','p','p'] []
          [(['l','e','v','e','l'], ['x']), (['l','e','v','e','l'], ['y'])])) := by
  refine ⟨rfl, rfl, rfl, by decide⟩

/-- Claim C8 (amended).  When validation has succeeded (for any set-iteration
order) and no two distinct prop keys at any node resolve to the same canonical
prop name, `_resolve_aliases` panics nowhere and returns exactly the
canonicalized tree described by the spec: every flag name and prop key
rewritten to the matching definition's canonical (first-declared) name, the
subcommand node renamed to its matched child definition's canonical name,
prop values and tree shape untouched.  (When two keys do collide on one
canonical name, the rebuilt prop map keeps only one of their values — see the
counterexample.) -/
theorem resolve_aliases_canonicalizes :
  ∀ (ord : List Str → List Str) (cmd : Command) (a : Args),
    _validate ord cmd a = Except.ok () →
    noPropCollisions cmd a →
    _resolve_aliases cmd a = some (resolveAliasesSpec cmd a) := by
  intro ord cmd a
  induction a generalizing cmd with
  | leaf n fl pr =>
    intro h hnc2
    simp only [_validate] at h
    cases hnc : nodeCheck ord cmd fl pr with
    | error e => rw [hnc] at h; simp at h
    | ok u =>
      obtain ⟨⟩ := u
      have he := nodeCheck_ok_elim ord cmd fl pr hnc
      have hpair : pr.Pairwise
          (fun pv1 pv2 => canonPropKey cmd pv1.1 ≠ canonPropKey cmd pv2.1) := hnc2
      simp only [_resolve_aliases, resolveAliasesSpec]
      rw [canonFlagsM_eq_map cmd fl he.1, canonPropsM_eq_map cmd pr he.2.1 hpair]
  | node n fl pr sa ih =>
    intro h hnc2
    have hpair : pr.Pairwise
        (fun pv1 pv2 => canonPropKey cmd pv1.1 ≠ canonPropKey cmd pv2.1) := hnc2.1
    simp only [_validate] at h
    cases hnc : nodeCheck ord cmd fl pr with
    | error e => rw [hnc] at h; simp at h
    | ok u =>
      obtain ⟨⟩ := u
      rw [hnc] at h
      dsimp only at h
      cases hsub : cmd.get_subcommand sa.name with
      | none => rw [hsub] at h; simp at h
      | some sd =>
        rw [hsub] at h
        have he := nodeCheck_ok_elim ord cmd fl pr hnc
        have ihr := ih sd h (hnc2.2 sd hsub)
        simp only [_resolve_aliases, resolveAliasesSpec]
        rw [canonFlagsM_eq_map cmd fl he.1, canonPropsM_eq_map cmd pr he.2.1 hpair]
        dsimp only
        rw [hsub]
        dsimp only
        rw [ihr]

/-- Witness for claim C8 (amended), on the spec's `level`/`l` example: a
schema with required prop `level` (alias `l`) rejects an args node without
it, accepts the collision-free alias form `l=x`, and alias resolution stores
the value under the canonical key `level`. -/
theorem resolve_aliases_canonicalizes_witness :
  (_validate id cmdLevel (Args.leaf ['a','p','p'] [] [])
    = Except.error (InvalidArguments.MissingRequiredOptions ['l','e','v','e','l']))
  ∧ (_validate id cmdLevel (Args.leaf ['a','p','p'] [] [(['l'], ['x'])]) = Except.ok ())
  ∧ (_resolve_aliases cmdLevel (Args.leaf ['a','p','p'] [] [(['l'], ['x'])])
    = some (Args.leaf ['a','p','p'] [] [(['l','e','v','e','l'], ['x'])])) := by
  refine ⟨rfl, rfl, ?_⟩
  exact (resolve_aliases_canonicalizes id cmdLevel
    (Args.leaf ['a','p','p'] [] [(['l'], ['x'])]) rfl
    (by simp [noPropCollisions])).trans rfl

/-- Claim C9.  `requested_help` returns the name of the first (shallowest)
node on the root-first subcommand chain whose flag set contains `h` or
`help`, and `none` when no node on the chain has such a flag; it never
consults the props (so it produces its answer even when required props are
missing) and uses no schema at all (it takes no `Command` argument). -/
theorem requested_help_first_in_chain :
  ∀ a : Args,
    requested_help a = ((chain a).find? hasHelpFlag).map Args.name
    ∧ requested_help (erasePropsA a) = requested_help a := by
  intro a
  induction a with
  | leaf n fl pr =>
    constructor
    · by_cases hb : (fl.contains hStr || fl.contains helpStr) = true
      · simp [requested_help, chain, hasHelpFlag, Args.flags, Args.name, hb]
      · simp [requested_help, chain, hasHelpFlag, Args.flags, Args.name, hb]
    · rfl
  | node n fl pr sa ih =>
    constructor
    · by_cases hb : (fl.contains hStr || fl.contains helpStr) = true
      · have hh : hasHelpFlag (Args.node n fl pr sa) = true := hb
        simp only [requested_help, chain, List.find?]
        rw [if_pos hb, hh]
        rfl
      · have hb2 : (fl.contains hStr || fl.contains helpStr) = false := by
          cases hcc : (fl.contains hStr || fl.contains helpStr) with
          | true => exact absurd hcc hb
          | false => rfl
        have hh : hasHelpFlag (Args.node n fl pr sa) = false := hb2
        simp only [requested_help, chain, List.find?]
        rw [if_neg hb, hh, ih.1]
    · show requested_help (Args.node n fl [] (erasePropsA sa)) = _
      simp only [requested_help]
      rw [ih.2]
